import Mathlib

set_option autoImplicit false

namespace ShellTutorial

/-! ## File-descriptor model for `simple-pipe.c`

`simple-pipe.c` starts with descriptors 0,1,2 bound to the terminal, calls
`pipe(pipe_fds)` (allocating the read end at descriptor 3 = `pipe_fds[0]`
and the write end at descriptor 4 = `pipe_fds[1]`), forks, and in each
branch rearranges the descriptor table with `dup2`/`close` before `execv`.
We model a descriptor table as a list indexed by descriptor number. -/

/-- What a descriptor slot can refer to in `simple-pipe.c`: the inherited
terminal, or one of the two ends of the single pipe. -/
inductive FdTarget where
  | tty
  | pipeRead
  | pipeWrite
deriving DecidableEq

/-- A process's descriptor table: slot `fd` holds `some t` when descriptor
`fd` is open and refers to `t`, `none` when it is closed. -/
abbrev FdTable := List (Option FdTarget)

/-- `dup2(src, dst)`: descriptor `dst` now refers to whatever `src` refers
to (closing what `dst` previously referred to). -/
def dup2 (t : FdTable) (src dst : Nat) : FdTable :=
  t.set dst (t.getD src none)

/-- `close(fd)`: remove descriptor `fd` from the table. -/
def fdClose (t : FdTable) (fd : Nat) : FdTable :=
  t.set fd none

/-- The table right after `pipe(pipe_fds)` in `main`: 0,1,2 are the
terminal, 3 is the pipe's read end, 4 its write end. -/
def initialTable : FdTable :=
  [some .tty, some .tty, some .tty, some .pipeRead, some .pipeWrite]

/-- src/simple-pipe.c, `fork()` nonzero branch (the `ls` stage):
`dup2(pipe_fds[1], 1); close(pipe_fds[0]);` then `execv`. -/
def srcLsAtExec : FdTable :=
  fdClose (dup2 initialTable 4 1) 3

/-- src/simple-pipe.c, `fork()` zero branch (the `wc` stage):
`dup2(pipe_fds[0], 0); close(pipe_fds[1]);` then `execv`. -/
def srcWcAtExec : FdTable :=
  fdClose (dup2 initialTable 3 0) 4

/-- The tutorial text's simple-pipe listing, `ls` stage:
`dup2(pipe_fds[1], 1); close(pipe_fds[1]); close(pipe_fds[0]);` then `execv`. -/
def listingLsAtExec : FdTable :=
  fdClose (fdClose (dup2 initialTable 4 1) 4) 3

/-- The tutorial text's simple-pipe listing, `wc` stage:
`dup2(pipe_fds[0], 0); close(pipe_fds[0]); close(pipe_fds[1]);` then `execv`. -/
def listingWcAtExec : FdTable :=
  fdClose (fdClose (dup2 initialTable 3 0) 3) 4

/-- Is this slot an open reference to either pipe end? -/
def isPipeTarget : Option FdTarget → Bool
  | some .pipeRead => true
  | some .pipeWrite => true
  | _ => false

/-- The descriptors of a table that refer to a pipe end, in order. -/
def pipeFds (t : FdTable) : List Nat :=
  (List.range t.length).filter fun fd => isPipeTarget (t.getD fd none)

/-- Claim C1: the claim requires that at the moment of `execv` no
descriptor other than the retained standard ones refers to a pipe. In
src/simple-pipe.c this fails: the `ls` stage leaves the original write end
`pipe_fds[1]` (descriptor 4) open, and the `wc` stage leaves the original
read end `pipe_fds[0]` (descriptor 3) open, while the tutorial listing,
which additionally closes the duplicated original, satisfies it. -/
theorem C1_src_simple_pipe_leaves_original_open :
    srcLsAtExec.getD 4 none = some .pipeWrite ∧
    pipeFds srcLsAtExec = [1, 4] ∧
    srcWcAtExec.getD 3 none = some .pipeRead ∧
    pipeFds srcWcAtExec = [0, 3] ∧
    pipeFds listingLsAtExec = [1] ∧
    pipeFds listingWcAtExec = [0] := by
  decide

/-- Claim C10 counterexample: the `ls` stage of src/simple-pipe.c reaches
`execv` with open pipe descriptors {1, 4}, whereas the tutorial listing's
`ls` stage reaches `execv` with {1}; the two versions are not
behaviorally equivalent in the sense of the claim. -/
theorem C10_counterexample_ls_stage_tables_differ :
    pipeFds srcLsAtExec ≠ pipeFds listingLsAtExec := by
  decide

/-- Claim C10 (amended): for each stage, the listing version's table at
`execv` equals the src version's table with the original duplicated pipe
endpoint additionally closed; hence the listing's open pipe descriptors
are exactly the src version's minus that original (so the two agree on
the standard descriptors 0..2, but the sets are not equal). -/
theorem C10_listing_closes_one_more_fd :
    listingLsAtExec = fdClose srcLsAtExec 4 ∧
    listingWcAtExec = fdClose srcWcAtExec 3 ∧
    pipeFds listingLsAtExec = (pipeFds srcLsAtExec).filter (fun fd => fd != 4) ∧
    pipeFds listingWcAtExec = (pipeFds srcWcAtExec).filter (fun fd => fd != 3) ∧
    listingLsAtExec.take 3 = srcLsAtExec.take 3 ∧
    listingWcAtExec.take 3 = srcWcAtExec.take 3 := by
  decide

/-! ## Descriptor wiring for N-stage pipelines

Spec 4.3: `wire(pipeline)` computes, per stage, which pipe ends feed its
standard input and output. Only the hard-coded two-stage instance exists
in simple-pipe.c, so the general function is modelled from the spec. -/

/-- One end of the pipe created for stage boundary `i` (between stage `i`
and stage `i + 1`). -/
inductive EndRef where
  | readEnd (i : Nat)
  | writeEnd (i : Nat)
deriving DecidableEq

/-- A stage's descriptor plan: the pipe end (if any) to duplicate onto its
standard input, and the pipe end (if any) to duplicate onto its standard
output. -/
structure StagePlan where
  stdinSrc : Option EndRef
  stdoutSink : Option EndRef
deriving DecidableEq

/-- Modelled from the spec: the Descriptor Wiring component (`wire`,
spec 4.3) is absent from src/ — only its two-stage instance appears in
simple-pipe.c. The stages are walked left to right; before every stage
except the last, the pipe for the boundary to its successor is created,
and the stage reads from the previous boundary's read end (if any) and
writes to the new boundary's write end. `prev` is the read end handed
down from the previous boundary, `next` the index of the next boundary;
the result is the per-stage plans and the number of pipe pairs created. -/
def wireFrom (prev : Option EndRef) (next : Nat) : Nat → List StagePlan × Nat
  | 0 => ([], 0)
  | 1 => ([⟨prev, none⟩], 0)
  | n + 2 =>
    let rest := wireFrom (some (.readEnd next)) (next + 1) (n + 1)
    (⟨prev, some (.writeEnd next)⟩ :: rest.1, rest.2 + 1)

/-- Wiring for an `n`-stage pipeline: stage 0 has no inherited read end and
boundaries are numbered from 0. -/
def wire (n : Nat) : List StagePlan × Nat :=
  wireFrom none 0 n

theorem wireFrom_length :
    ∀ (n : Nat) (prev : Option EndRef) (next : Nat),
      (wireFrom prev next n).1.length = n
  | 0, _, _ => rfl
  | 1, _, _ => rfl
  | n + 2, prev, next => by
    simp [wireFrom, wireFrom_length (n + 1)]

theorem wireFrom_count :
    ∀ (n : Nat) (prev : Option EndRef) (next : Nat), 1 ≤ n →
      (wireFrom prev next n).2 = n - 1
  | 1, _, _, _ => rfl
  | n + 2, prev, next, _ => by
    simp [wireFrom, wireFrom_count (n + 1) (some (.readEnd next)) (next + 1) (by omega)]

theorem wireFrom_get :
    ∀ (n : Nat) (prev : Option EndRef) (next : Nat) (i : Nat), i < n →
      (wireFrom prev next n).1[i]? =
        some ⟨if i = 0 then prev else some (.readEnd (next + i - 1)),
              if i + 1 = n then none else some (.writeEnd (next + i))⟩
  | 1, prev, next, 0, _ => by simp [wireFrom]
  | n + 2, prev, next, 0, _ => by simp [wireFrom]
  | n + 2, prev, next, j + 1, hi => by
    have ih := wireFrom_get (n + 1) (some (.readEnd next)) (next + 1) j (by omega)
    cases j with
    | zero => simpa [wireFrom] using ih
    | succ k =>
      have hcons : wireFrom prev next (n + 2) =
          (⟨prev, some (.writeEnd next)⟩ ::
            (wireFrom (some (.readEnd next)) (next + 1) (n + 1)).1,
           (wireFrom (some (.readEnd next)) (next + 1) (n + 1)).2 + 1) := rfl
      rw [hcons]
      simp only [List.getElem?_cons_succ]
      rw [ih]
      have e1 : next + 1 + (k + 1) - 1 = next + (k + 1 + 1) - 1 := by omega
      have e2 : next + 1 + (k + 1) = next + (k + 1 + 1) := by omega
      rw [if_neg (by omega : ¬ k + 1 = 0), if_neg (by omega : ¬ k + 1 + 1 = 0), e1, e2]
      by_cases hc : k + 1 + 1 = n + 1
      · rw [if_pos hc, if_pos (by omega : k + 1 + 1 + 1 = n + 2)]
      · rw [if_neg hc, if_neg (by omega : ¬ k + 1 + 1 + 1 = n + 2)]

/-- Claim C2: wiring an `n`-stage pipeline (`n ≥ 1`) creates exactly
`n − 1` pipe pairs and gives stage `i` exactly the adjacent ends: its
standard input is the read end of pipe `i − 1` when `i > 0` (none for
stage 0), and its standard output is the write end of pipe `i` when
`i < n − 1` (none for the last stage); the plan references no other ends. -/
theorem C2_wire_adjacent (n i : Nat) (hn : 1 ≤ n) (hi : i < n) :
    (wire n).2 = n - 1 ∧ (wire n).1.length = n ∧
    (wire n).1[i]? =
      some ⟨if i = 0 then none else some (.readEnd (i - 1)),
            if i + 1 = n then none else some (.writeEnd i)⟩ := by
  refine ⟨wireFrom_count n none 0 hn, wireFrom_length n none 0, ?_⟩
  simpa using wireFrom_get n none 0 i hi

/-- Claim C2 witness: a three-stage pipeline gets exactly two pipe pairs,
and its middle stage reads the read end of pipe 0 and writes the write end
of pipe 1. -/
theorem C2_wire_adjacent_witness :
    (wire 3).2 = 2 ∧ (wire 3).1.length = 3 ∧
    (wire 3).1[1]? = some ⟨some (.readEnd 0), some (.writeEnd 1)⟩ := by
  have h := C2_wire_adjacent 3 1 (by decide) (by decide)
  simpa using h

/-! ## Word splitting in argv-shell.c

The loop
`words[0] = line; for (int i = 1; words[i] = strchr(words[i - 1], ' '); ++i) *(words[i]++) = 0;`
overwrites each space with a terminator and records the position after it,
so the final contents of `words` are the segments of the line split at
every single space (runs of spaces are NOT collapsed), followed by NULL. -/

/-- The word list produced by the argv-shell splitting loop: the line cut
at every single space character. Always nonempty (`words[0]` is set
unconditionally); an empty line yields the single empty word. -/
def splitWords : List Char → List (List Char)
  | [] => [[]]
  | c :: cs =>
    if c = ' ' then [] :: splitWords cs
    else
      match splitWords cs with
      | [] => [[c]]
      | w :: ws => (c :: w) :: ws

theorem splitWords_ne_nil (cs : List Char) : splitWords cs ≠ [] := by
  match cs with
  | [] => simp [splitWords]
  | c :: cs =>
    rw [splitWords]
    by_cases hc : c = ' '
    · simp [hc]
    · rw [if_neg hc]
      cases splitWords cs <;> simp

/-- Claim C4 counterexample: the line `ls  -l` (two adjacent spaces)
splits into `["ls", "", "-l"]`, so the word sequence — and hence the argv
handed to `execv` — contains an empty entry. -/
theorem C4_counterexample_adjacent_spaces :
    splitWords (['l', 's', ' ', ' ', '-', 'l']) =
      [['l', 's'], [], ['-', 'l']] ∧
    [] ∈ splitWords (['l', 's', ' ', ' ', '-', 'l']) := by
  decide

/-- True when the line is nonempty, does not end in a space, and has no
two adjacent spaces. -/
def noSpaceRuns : List Char → Bool
  | [] => false
  | [c] => c != ' '
  | c :: d :: cs => (c != ' ' || d != ' ') && noSpaceRuns (d :: cs)

/-- When the head is not a space, the split keeps it glued onto the first
word of the remainder's split. -/
theorem splitWords_cons_ne_space (c : Char) (cs : List Char) (hc : c ≠ ' ')
    (w : List Char) (ws : List (List Char)) (h : splitWords cs = w :: ws) :
    splitWords (c :: cs) = (c :: w) :: ws := by
  rw [splitWords, if_neg hc, h]

/-- Claim C4 (amended): the argv-shell loop splits at every single space
without collapsing runs, so adjacent spaces DO produce empty argv entries
(the tutorial itself lists this as defect 2); a nonempty line that does
not start or end with a space and has no two adjacent spaces produces no
empty entry. -/
theorem C4_no_empty_words :
    ∀ (cs : List Char), cs.head? ≠ some ' ' → noSpaceRuns cs = true →
      ∀ w ∈ splitWords cs, w ≠ []
  | [], _, h2 => by simp [noSpaceRuns] at h2
  | [c], _, h2 => by
    have hc : c ≠ ' ' := by simpa [noSpaceRuns] using h2
    simp [splitWords, hc]
  | [c, d], h1, h2 => by
    have hc : c ≠ ' ' := fun he => h1 (by simp [he])
    have hd : d ≠ ' ' := by
      simp [noSpaceRuns] at h2
      exact h2.2
    simp [splitWords, hc, hd]
  | c :: d :: e :: cs, h1, h2 => by
    have hc : c ≠ ' ' := fun he => h1 (by simp [he])
    by_cases hd : d = ' '
    · subst hd
      have h2' : e ≠ ' ' ∧ noSpaceRuns (e :: cs) = true := by
        rw [noSpaceRuns, noSpaceRuns] at h2
        simp at h2
        exact ⟨h2.2.1, h2.2.2⟩
      have ih := C4_no_empty_words (e :: cs) (by simpa using h2'.1) h2'.2
      have hsplit : splitWords (c :: ' ' :: e :: cs) = [c] :: splitWords (e :: cs) := by
        rw [splitWords, if_neg hc, splitWords, if_pos rfl]
      rw [hsplit]
      intro w hw
      rcases List.mem_cons.mp hw with rfl | hw
      · simp
      · exact ih w hw
    · have h2' : noSpaceRuns (d :: e :: cs) = true := by
        rw [noSpaceRuns] at h2
        exact ((Bool.and_eq_true _ _).mp h2).2
      have ih := C4_no_empty_words (d :: e :: cs) (by simpa using hd) h2'
      rcases hmem : splitWords (d :: e :: cs) with _ | ⟨w0, ws⟩
      · exact absurd hmem (splitWords_ne_nil _)
      · rw [splitWords_cons_ne_space c _ hc w0 ws hmem]
        intro w hw
        rcases List.mem_cons.mp hw with rfl | hw
        · simp
        · exact ih w (by rw [hmem]; exact List.mem_cons_of_mem _ hw)

/-- Claim C4 witness: the single-spaced line `ls -l` satisfies the side
conditions and its first word `ls` is nonempty. -/
theorem C4_no_empty_words_witness :
    noSpaceRuns (['l', 's', ' ', '-', 'l']) = true ∧
    (['l', 's'] : List Char) ≠ [] :=
  ⟨by decide,
   C4_no_empty_words (['l', 's', ' ', '-', 'l']) (by decide) (by decide)
     (['l', 's']) (by decide)⟩

/-! ## Bounds of the `words[256]` buffer

The loop stores field `i` of the split at `words[i]` and finally stores
the NULL returned by `strchr` at the next index, so with `f` fields it
writes slots `0 .. f`. -/

/-- The loop writes one slot per space found plus the initial slot and
the final NULL: each field adds one slot. -/
theorem splitWords_length_eq (cs : List Char) :
    (splitWords cs).length = cs.count ' ' + 1 := by
  induction cs with
  | nil => rfl
  | cons c cs ih =>
    by_cases hc : c = ' '
    · subst hc
      simp [splitWords, List.count_cons, ih]
    · rcases hmem : splitWords cs with _ | ⟨w0, ws⟩
      · exact absurd hmem (splitWords_ne_nil _)
      · rw [splitWords_cons_ne_space c cs hc w0 ws hmem]
        rw [hmem] at ih
        simp only [List.length_cons] at ih ⊢
        rw [List.count_cons, if_neg (by simpa using hc)]
        omega

/-- Final contents of the written `words` slots in index order: field `i`
at slot `i`, then the terminating NULL. -/
def wordSlots (cs : List Char) : List (Option (List Char)) :=
  (splitWords cs).map some ++ [none]

/-- The index of the highest slot the loop writes (the NULL slot, one
past the last field). -/
def highestSlotWritten (cs : List Char) : Nat :=
  (splitWords cs).length

/-- Claim C8: for a line with fewer than 256 space-separated fields, every
slot the splitting loop writes has index below 256 (inside `words[256]`),
and the resulting vector is NULL-terminated; the field count is the number
of spaces plus one. -/
theorem C8_words_in_bounds (cs : List Char)
    (h : (splitWords cs).length < 256) :
    highestSlotWritten cs < 256 ∧
    (wordSlots cs).length ≤ 256 ∧
    (wordSlots cs).getLast? = some none ∧
    (splitWords cs).length = cs.count ' ' + 1 := by
  refine ⟨h, ?_, ?_, splitWords_length_eq cs⟩
  · rw [wordSlots, List.length_append, List.length_map]
    simp only [List.length_singleton]
    omega
  · rw [wordSlots, List.getLast?_concat]

/-- Claim C8 witness: the line `ls -l` has two fields, so all written
slots fit and the vector ends with NULL. -/
theorem C8_words_in_bounds_witness :
    highestSlotWritten (['l', 's', ' ', '-', 'l']) < 256 ∧
    (wordSlots (['l', 's', ' ', '-', 'l'])).length ≤ 256 ∧
    (wordSlots (['l', 's', ' ', '-', 'l'])).getLast? = some none ∧
    (splitWords (['l', 's', ' ', '-', 'l'])).length =
      (['l', 's', ' ', '-', 'l']).count ' ' + 1 :=
  C8_words_in_bounds (['l', 's', ' ', '-', 'l']) (by decide)

/-! ## The argv-shell interpreter loop

`main` repeatedly calls getline, trims the final character, splits the
line, forks, and in the parent waits for the forked pid and reports its
status, while the child calls `execv(words[0], words)` and, if that
returns, prints an error and returns 1. We model one run as the list of
observable events it produces. -/

/-- How `execv` behaves for a given program path and argument vector:
`some code` when control transfers and the program eventually exits with
`code`; `none` when `execv` fails and returns. External to the shell. -/
structure ExecEnv where
  run : List Char → List (List Char) → Option Nat

/-- Observable events of an argv-shell run. -/
inductive Event where
  | readLine (raw : List Char)
  | fork (pid : Nat)
  | execCall (pid : Nat) (prog : List Char) (argv : List (List Char)) (ok : Bool)
  | childError (pid : Nat)
  | wait (pid : Nat) (status : Nat)
  | report (status : Nat)
deriving DecidableEq

/-- The `waitpid` status seen by the parent for a child that exited with
`code`: the low byte of the exit code in bits 8..15. -/
def waitStatusOf (code : Nat) : Nat :=
  (code % 256) * 256

/-- `line[n - 1] = 0;`: the line read is unconditionally shortened by one
character before splitting. -/
def trimNewline (raw : List Char) : List Char :=
  raw.dropLast

/-- Events on the child's side of the fork: the exec attempt, and — when
`execv` returns — the `perror` report followed by `return 1`, which the
parent collects as wait status `waitStatusOf 1`. On success the child's
eventual exit code is the program's. -/
def childEvents (pid : Nat) (prog : List Char) (ws : List (List Char)) :
    Option Nat → List Event
  | some code => [.execCall pid prog ws true,
                  .wait pid (waitStatusOf code), .report (waitStatusOf code)]
  | none => [.execCall pid prog ws false, .childError pid,
             .wait pid (waitStatusOf 1), .report (waitStatusOf 1)]

/-- One iteration of the while loop on raw line `raw`, where `pid` is the
pid the kernel returns from `fork` to the parent: trim, split, fork, exec
in the child, and one `waitpid(child, ..)` plus one status report in the
parent. -/
def processLine (env : ExecEnv) (pid : Nat) (raw : List Char) : List Event :=
  let ws := splitWords (trimNewline raw)
  let prog := ws.headI
  .readLine raw :: .fork pid :: childEvents pid prog ws (env.run prog ws)

/-- The whole while loop: one iteration per input line; getline returning
-1 at end of input ends the loop with no further events. Forked pids are
fresh: the kernel never reuses an unreaped pid, modelled by a strictly
increasing counter. -/
def runShell (env : ExecEnv) : Nat → List (List Char) → List Event
  | _, [] => []
  | pid, raw :: rest => processLine env pid raw ++ runShell env (pid + 1) rest

/-- An environment in which `execv` always fails (as it does for the
empty program name produced by an empty input line). -/
def noProgEnv : ExecEnv :=
  ⟨fun _ _ => none⟩

def isFork : Event → Bool
  | .fork _ => true
  | .readLine _ => false
  | .execCall _ _ _ _ => false
  | .childError _ => false
  | .wait _ _ => false
  | .report _ => false

def isReport : Event → Bool
  | .report _ => true
  | .readLine _ => false
  | .fork _ => false
  | .execCall _ _ _ _ => false
  | .childError _ => false
  | .wait _ _ => false

def isForkOf (p : Nat) : Event → Bool
  | .fork q => q == p
  | .readLine _ => false
  | .execCall _ _ _ _ => false
  | .childError _ => false
  | .wait _ _ => false
  | .report _ => false

def isWaitOf (p : Nat) : Event → Bool
  | .wait q _ => q == p
  | .readLine _ => false
  | .fork _ => false
  | .execCall _ _ _ _ => false
  | .childError _ => false
  | .report _ => false

/-- Events the parent can observe about a stage's outcome: its collected
wait status and the interpreter's own report line. -/
def parentObservable : Event → Bool
  | .wait _ _ => true
  | .report _ => true
  | .readLine _ => false
  | .fork _ => false
  | .execCall _ _ _ _ => false
  | .childError _ => false

/-- Claim C9: the interpreter unconditionally overwrites the final
character of each line it reads with a terminator; when the raw line is
the typed text plus a newline the executed text equals the typed text,
and for a nonempty final line lacking the newline the last typed
character is deleted (the trimmed line differs from the raw line). -/
theorem C9_trim_deletes_last_char (typed raw : List Char) (hne : raw ≠ []) :
    trimNewline (typed ++ ['\n']) = typed ∧
    trimNewline raw = raw.dropLast ∧
    trimNewline raw ≠ raw := by
  refine ⟨by simp [trimNewline], rfl, ?_⟩
  have hl : 0 < raw.length := List.length_pos.mpr hne
  intro he
  have hlen := congrArg List.length he
  rw [trimNewline, List.length_dropLast] at hlen
  omega

/-- Claim C9 witness: trimming `ls` plus newline gives back `ls`, and
trimming the newline-less final line `ab` deletes its last character. -/
theorem C9_trim_deletes_last_char_witness :
    trimNewline (['l', 's'] ++ ['\n']) = ['l', 's'] ∧
    trimNewline (['a', 'b']) = (['a', 'b'] : List Char).dropLast ∧
    trimNewline (['a', 'b']) ≠ ['a', 'b'] :=
  C9_trim_deletes_last_char (['l', 's']) (['a', 'b']) (by decide)

/-- Claim C5: when `execv` fails for a stage, the child itself prints the
error and returns 1, so the parent collects the reserved nonzero wait
status; the parent-observable events are exactly that wait status and its
report — there is no typed error channel back to the parent. -/
theorem C5_exec_failure_stays_in_child (env : ExecEnv) (pid : Nat) (raw : List Char)
    (hfail : env.run (splitWords (trimNewline raw)).headI
      (splitWords (trimNewline raw)) = none) :
    processLine env pid raw =
      [.readLine raw, .fork pid,
       .execCall pid (splitWords (trimNewline raw)).headI
         (splitWords (trimNewline raw)) false,
       .childError pid, .wait pid (waitStatusOf 1), .report (waitStatusOf 1)] ∧
    waitStatusOf 1 ≠ 0 ∧
    (processLine env pid raw).filter parentObservable =
      [.wait pid (waitStatusOf 1), .report (waitStatusOf 1)] := by
  have hp : processLine env pid raw =
      [.readLine raw, .fork pid,
       .execCall pid (splitWords (trimNewline raw)).headI
         (splitWords (trimNewline raw)) false,
       .childError pid, .wait pid (waitStatusOf 1), .report (waitStatusOf 1)] := by
    rw [processLine, hfail, childEvents]
  refine ⟨hp, by decide, ?_⟩
  rw [hp]
  simp [List.filter, parentObservable]

/-- Claim C5 witness: with an environment in which `execv` always fails,
processing the line `x` yields the child-side error and the reserved
nonzero status for the parent. -/
theorem C5_exec_failure_stays_in_child_witness :
    processLine noProgEnv 5 (['x', '\n']) =
      [.readLine (['x', '\n']), .fork 5,
       .execCall 5 ((splitWords (trimNewline (['x', '\n']))).headI)
         (splitWords (trimNewline (['x', '\n']))) false,
       .childError 5, .wait 5 (waitStatusOf 1), .report (waitStatusOf 1)] ∧
    waitStatusOf 1 ≠ 0 ∧
    (processLine noProgEnv 5 (['x', '\n'])).filter parentObservable =
      [.wait 5 (waitStatusOf 1), .report (waitStatusOf 1)] :=
  C5_exec_failure_stays_in_child noProgEnv 5 (['x', '\n']) rfl

/-- Claim C6 counterexample: on the empty input line (the raw line is just
the newline), the interpreter does NOT skip: it forks a child (which
fails to exec the empty program name) and writes a status report. -/
theorem C6_counterexample_empty_line_forks :
    (runShell noProgEnv 100 [['\n']]).filter isFork = [.fork 100] ∧
    (runShell noProgEnv 100 [['\n']]).filter isReport =
      [.report (waitStatusOf 1)] := by
  decide

/-- Claim C6 (amended): an empty input line is processed like any other
line: the newline is trimmed leaving the empty string, which splits into
the single empty word, so the interpreter forks a child whose exec of the
empty program name fails, reports that child's status, and continues with
the next line; end-of-input terminates the loop with no further action. -/
theorem C6_empty_line_not_noop (env : ExecEnv) (pid : Nat)
    (rest : List (List Char)) (hfail : env.run [] [[]] = none) :
    runShell env pid (['\n'] :: rest) =
      [.readLine (['\n']), .fork pid, .execCall pid [] [[]] false,
       .childError pid, .wait pid (waitStatusOf 1), .report (waitStatusOf 1)] ++
        runShell env (pid + 1) rest ∧
    runShell env pid [] = [] := by
  have hblock : processLine env pid (['\n']) =
      [.readLine (['\n']), .fork pid, .execCall pid [] [[]] false,
       .childError pid, .wait pid (waitStatusOf 1), .report (waitStatusOf 1)] := by
    rw [processLine]
    have h1 : trimNewline (['\n']) = [] := rfl
    have h2 : splitWords [] = [[]] := rfl
    rw [h1, h2]
    have h3 : ([[]] : List (List Char)).headI = [] := rfl
    rw [h3, hfail, childEvents]
  exact ⟨by rw [runShell, hblock], rfl⟩

/-- Claim C6 witness: with the always-failing exec environment and the
single empty input line, the run consists of exactly the fork, failed
exec, child error, wait, and report events. -/
theorem C6_empty_line_not_noop_witness :
    runShell noProgEnv 100 [['\n']] =
      [.readLine (['\n']), .fork 100, .execCall 100 [] [[]] false,
       .childError 100, .wait 100 (waitStatusOf 1),
       .report (waitStatusOf 1)] ++ runShell noProgEnv 101 [] ∧
    runShell noProgEnv 100 ([] : List (List Char)) = [] :=
  C6_empty_line_not_noop noProgEnv 100 [] rfl

/-! ## Reaping: every forked pid is waited on exactly once -/

/-- In the events, does a wait for `p` occur before any further
read of an input line? -/
def waitPrecedesRead (p : Nat) : List Event → Bool
  | [] => false
  | .readLine _ :: _ => false
  | .wait q _ :: rest => q == p || waitPrecedesRead p rest
  | .fork _ :: rest => waitPrecedesRead p rest
  | .execCall _ _ _ _ :: rest => waitPrecedesRead p rest
  | .childError _ :: rest => waitPrecedesRead p rest
  | .report _ :: rest => waitPrecedesRead p rest

/-- Every fork in the events is followed by a wait on the forked pid
before the next line is read. -/
def waitsBeforeNextRead : List Event → Bool
  | [] => true
  | .fork p :: rest => waitPrecedesRead p rest && waitsBeforeNextRead rest
  | .readLine _ :: rest => waitsBeforeNextRead rest
  | .wait _ _ :: rest => waitsBeforeNextRead rest
  | .execCall _ _ _ _ :: rest => waitsBeforeNextRead rest
  | .childError _ :: rest => waitsBeforeNextRead rest
  | .report _ :: rest => waitsBeforeNextRead rest

theorem countP_fork_childEvents (pid : Nat) (prog : List Char)
    (ws : List (List Char)) (o : Option Nat) (p : Nat) :
    (childEvents pid prog ws o).countP (isForkOf p) = 0 := by
  cases o <;> simp [childEvents, isForkOf, List.countP_cons]

theorem countP_wait_childEvents (pid : Nat) (prog : List Char)
    (ws : List (List Char)) (o : Option Nat) (p : Nat) :
    (childEvents pid prog ws o).countP (isWaitOf p) =
      if p = pid then 1 else 0 := by
  by_cases hp : p = pid
  · subst hp
    cases o <;> simp [childEvents, isWaitOf, List.countP_cons]
  · have hb : (pid == p) = false := beq_eq_false_iff_ne.mpr (Ne.symm hp)
    cases o <;> simp [childEvents, isWaitOf, List.countP_cons, hb, hp]

theorem countP_fork_processLine (env : ExecEnv) (pid : Nat) (raw : List Char)
    (p : Nat) :
    (processLine env pid raw).countP (isForkOf p) = if p = pid then 1 else 0 := by
  rw [processLine]
  by_cases hp : p = pid
  · subst hp
    simp [List.countP_cons, isForkOf, countP_fork_childEvents]
  · have hb : (pid == p) = false := beq_eq_false_iff_ne.mpr (Ne.symm hp)
    simp [List.countP_cons, isForkOf, countP_fork_childEvents, hb, hp]

theorem countP_wait_processLine (env : ExecEnv) (pid : Nat) (raw : List Char)
    (p : Nat) :
    (processLine env pid raw).countP (isWaitOf p) = if p = pid then 1 else 0 := by
  simp [processLine, List.countP_cons, isWaitOf, countP_wait_childEvents]

/-- Forked pids in a run starting at counter `q` are at least `q`. -/
theorem countP_fork_runShell_lt (env : ExecEnv) (p : Nat) :
    ∀ (lines : List (List Char)) (q : Nat), p < q →
      (runShell env q lines).countP (isForkOf p) = 0
  | [], _, _ => rfl
  | raw :: rest, q, h => by
    rw [runShell, List.countP_append, countP_fork_processLine,
      if_neg (by omega : ¬ p = q),
      countP_fork_runShell_lt env p rest (q + 1) (by omega)]

theorem waitPrecedesRead_childEvents (pid : Nat) (prog : List Char)
    (ws : List (List Char)) (o : Option Nat) (t : List Event) :
    waitPrecedesRead pid (childEvents pid prog ws o ++ t) = true := by
  cases o <;> simp [childEvents, waitPrecedesRead]

theorem waitsBeforeNextRead_childEvents (pid : Nat) (prog : List Char)
    (ws : List (List Char)) (o : Option Nat) (t : List Event) :
    waitsBeforeNextRead (childEvents pid prog ws o ++ t) =
      waitsBeforeNextRead t := by
  cases o <;> simp [childEvents, waitsBeforeNextRead]

theorem waitsBeforeNextRead_processLine (env : ExecEnv) (pid : Nat)
    (raw : List Char) (t : List Event) :
    waitsBeforeNextRead (processLine env pid raw ++ t) =
      waitsBeforeNextRead t := by
  have h1 : ∀ (x : List Char) (rest : List Event),
      waitsBeforeNextRead (Event.readLine x :: rest) =
        waitsBeforeNextRead rest := fun _ _ => rfl
  have h2 : ∀ (q : Nat) (rest : List Event),
      waitsBeforeNextRead (Event.fork q :: rest) =
        (waitPrecedesRead q rest && waitsBeforeNextRead rest) := fun _ _ => rfl
  rw [processLine, List.cons_append, List.cons_append, h1, h2,
    waitPrecedesRead_childEvents, waitsBeforeNextRead_childEvents]
  simp

theorem wait_report_childEvents (pid : Nat) (prog : List Char)
    (ws : List (List Char)) (o : Option Nat) (p s : Nat)
    (h : Event.wait p s ∈ childEvents pid prog ws o) :
    Event.report s ∈ childEvents pid prog ws o := by
  cases o <;> simp [childEvents] at h ⊢ <;> tauto

theorem wait_report_processLine (env : ExecEnv) (pid : Nat) (raw : List Char)
    (p s : Nat) (h : Event.wait p s ∈ processLine env pid raw) :
    Event.report s ∈ processLine env pid raw := by
  simp only [processLine, List.mem_cons] at h ⊢
  rcases h with h | h | h
  · exact absurd h (by simp)
  · exact absurd h (by simp)
  · exact Or.inr (Or.inr (wait_report_childEvents _ _ _ _ _ _ h))

/-- Claim C7: in any run, each pid is forked at most once, is waited on
exactly as many times as it is forked (so each created child is reaped
exactly once and no stray wait occurs), the wait for a forked pid happens
before the next input line is read, and every collected wait status is
reported. -/
theorem C7_reap_exactly_once (env : ExecEnv) (pid0 : Nat)
    (lines : List (List Char)) (p : Nat) :
    (runShell env pid0 lines).countP (isForkOf p) ≤ 1 ∧
    (runShell env pid0 lines).countP (isWaitOf p) =
      (runShell env pid0 lines).countP (isForkOf p) ∧
    waitsBeforeNextRead (runShell env pid0 lines) = true ∧
    (∀ s, Event.wait p s ∈ runShell env pid0 lines →
      Event.report s ∈ runShell env pid0 lines) := by
  induction lines generalizing pid0 with
  | nil =>
    refine ⟨by simp [runShell], by simp [runShell], rfl, ?_⟩
    intro s hs
    simp [runShell] at hs
  | cons raw rest ih =>
    obtain ⟨ih1, ih2, ih3, ih4⟩ := ih (pid0 + 1)
    refine ⟨?_, ?_, ?_, ?_⟩
    · rw [runShell, List.countP_append, countP_fork_processLine]
      by_cases hp : p = pid0
      · rw [if_pos hp,
          countP_fork_runShell_lt env p rest (pid0 + 1) (by omega)]
      · rw [if_neg hp]
        simpa using ih1
    · rw [runShell, List.countP_append, List.countP_append,
        countP_fork_processLine, countP_wait_processLine, ih2]
    · rw [runShell, waitsBeforeNextRead_processLine, ih3]
    · intro s hs
      rw [runShell] at hs ⊢
      rcases List.mem_append.mp hs with hs | hs
      · exact List.mem_append_left _ (wait_report_processLine _ _ _ _ _ hs)
      · exact List.mem_append_right _ (ih4 s hs)

/-- Claim C7 witness: on the single input line `ls`, pid 3 is forked once
and waited on once. -/
theorem C7_reap_exactly_once_witness :
    (runShell noProgEnv 3 [['l', 's', '\n']]).countP (isWaitOf 3) =
      (runShell noProgEnv 3 [['l', 's', '\n']]).countP (isForkOf 3) :=
  (C7_reap_exactly_once noProgEnv 3 [['l', 's', '\n']] 3).2.1

/-! ## Launching a pipeline as a Job -/

/-- One pipeline element: a program name and its argument vector. -/
structure Stage where
  prog : List Char
  argv : List (List Char)
deriving DecidableEq

/-- A launched pipeline's runtime tracking unit: one process id per
stage, in pipeline order. -/
structure Job where
  pids : List Nat
deriving DecidableEq

/-- Modelled from the spec: the Process Launcher (spec 4.4) is absent
from src/ — simple-pipe.c runs its first stage in the original process
instead of creating one child per stage. For each stage in order, `fork`
creates one new process; the kernel hands out fresh pids, modelled by a
counter that starts strictly above every live pid. -/
def spawnStages : List Stage → Nat → List Nat
  | [], _ => []
  | _ :: rest, next => next :: spawnStages rest (next + 1)

/-- Modelled from the spec: launching registers the spawned pids, one per
stage in pipeline order, as one Job. -/
def launch (stages : List Stage) (nextPid : Nat) : Job :=
  ⟨spawnStages stages nextPid⟩

/-- Modelled from the spec: the Reaper / Status Reporter (spec 4.6) is
absent from src/. Once every process of a Job has exited, the Job
reports the exit statuses, one per stage, in pipeline order. -/
def reportStatuses (j : Job) (exitStatus : Nat → Nat) : List Nat :=
  j.pids.map exitStatus

/-- The two-stage pipeline for the input `ls | wc -l`. -/
def lsWcPipeline : List Stage :=
  [⟨['l', 's'], [['l', 's']]⟩,
   ⟨['w', 'c'], [['w', 'c'], ['-', 'l']]⟩]

theorem spawnStages_length :
    ∀ (st : List Stage) (q : Nat), (spawnStages st q).length = st.length
  | [], _ => rfl
  | _ :: rest, q => by
    rw [spawnStages, List.length_cons, spawnStages_length rest (q + 1),
      List.length_cons]

theorem mem_spawnStages_ge :
    ∀ (st : List Stage) (q p : Nat), p ∈ spawnStages st q → q ≤ p
  | [], _, _, h => absurd h (List.not_mem_nil _)
  | _ :: rest, q, p, h => by
    rcases List.mem_cons.mp h with rfl | h
    · exact Nat.le_refl _
    · have := mem_spawnStages_ge rest (q + 1) p h
      omega

theorem spawnStages_nodup :
    ∀ (st : List Stage) (q : Nat), (spawnStages st q).Nodup
  | [], _ => List.nodup_nil
  | _ :: rest, q => by
    rw [spawnStages, List.nodup_cons]
    refine ⟨fun h => ?_, spawnStages_nodup rest (q + 1)⟩
    have := mem_spawnStages_ge rest (q + 1) q h
    omega

/-- Claim C3: launching an N-stage pipeline creates one new process per
stage — the Job records N distinct pids, all different from the
interpreter's own pid; for the two-stage pipeline of `ls | wc -l` the Job
holds exactly two pids, and once both have exited their two exit statuses
are reported in pipeline order. -/
theorem C3_one_child_per_stage (stages : List Stage) (interp next : Nat)
    (hfresh : interp < next) (exitStatus : Nat → Nat) :
    (launch stages next).pids.length = stages.length ∧
    (launch stages next).pids.Nodup ∧
    (∀ p ∈ (launch stages next).pids, p ≠ interp) ∧
    (launch lsWcPipeline next).pids = [next, next + 1] ∧
    reportStatuses (launch lsWcPipeline next) exitStatus =
      [exitStatus next, exitStatus (next + 1)] := by
  refine ⟨spawnStages_length stages next, spawnStages_nodup stages next,
    ?_, rfl, rfl⟩
  intro p hp
  have := mem_spawnStages_ge stages next p hp
  omega

/-- Claim C3 witness: with interpreter pid 1 and fresh pids from 2, the
`ls | wc -l` Job holds the two pids 2 and 3 and reports their statuses in
order. -/
theorem C3_one_child_per_stage_witness :
    (1 : Nat) < 2 ∧
    (launch lsWcPipeline 2).pids = [2, 3] ∧
    reportStatuses (launch lsWcPipeline 2) id = [2, 3] :=
  ⟨by decide,
   (C3_one_child_per_stage lsWcPipeline 1 2 (by decide) id).2.2.2.1,
   (C3_one_child_per_stage lsWcPipeline 1 2 (by decide) id).2.2.2.2⟩

end ShellTutorial
